import Mathlib

/-!
Verification development for the `explorer-wasmap` ACO engine.

The Go source is shallowly embedded over exact rationals:
* `float64` values become `ℚ`; the `math.Inf(1)` "no edge" sentinel of the
  distance matrix becomes `Option ℚ` with `none` playing the role of `+Inf`
  (the only arithmetic the source performs on a possibly-infinite value is
  summation in `calculatePathDistance` and the division `Q / dist`, embedded
  by `addD` and `divD` below, matching IEEE behaviour `x + Inf = Inf` and
  `Q / Inf = 0`).
* the engine's random source (`rand.Rand`) becomes an explicit stream of
  draws `ℕ → ℚ`; `Rand.Float64()` reads the head of the stream and shifts
  it, exactly at the program points where the Go code calls it.
* `math.Pow(x, Alpha)` and `math.Pow(1/d, Beta)` with the integral constants
  `Alpha = 1.0`, `Beta = 5.0` become exact integer powers.
* `math.Hypot` and the node-coordinate draws of `NewACO` are irrational /
  random inputs; `NewACO` is parametrised by the coordinates and by the
  `hypot` function so that the matrix-building control flow (ring edges,
  shortcut edges, normalisation, floor, the no-op guard on existing edges)
  is embedded faithfully while the numeric value of a raw Euclidean
  distance stays an input.
-/

set_option allowUnsafeReducibility true in

attribute [semireducible] Rat.add Rat.sub Rat.mul Rat.inv

namespace WasmACO

/-- Constant `AntCount = 20` from the source. -/
def AntCount : ℕ := 20

/-- Constant `Alpha = 1.0` from the source, used only as the exponent in
`math.Pow(pheromone, Alpha)`. -/
def Alpha : ℕ := 1

/-- Constant `Beta = 5.0` from the source, used only as the exponent in
`math.Pow(1/distance, Beta)`. -/
def Beta : ℕ := 5

/-- Constant `Evaporation = 0.5` from the source. -/
def Evaporation : ℚ := 1/2

/-- Constant `Q = 100.0` from the source. -/
def Q : ℚ := 100

/-- Constant `InitialPheromone = 1.0` from the source. -/
def InitialPheromone : ℚ := 1

/-- The exact value of Go's `math.MaxFloat64` (equal to `2^1024 - 2^971`,
written as a numeral so that it evaluates), the initial `BestDist`. -/
def MaxFloat64 : ℚ := 179769313486231570814527423731704356798070567525844996598917476803157260780028538760589558632766878171540458953514382464234321326889464182768467546703537516986049910576551282076245490090389328944075868508455133942304583236903222948165808559332123348274797826204144723168738177180919299881250404026184124858368

/-- The constant `MaxEuclideanDist = 141.421356` from `NewACO`. -/
def MaxEuclideanDist : ℚ := 141421356/1000000

/-- The `Edge` struct (reporting view sent to JS). -/
structure Edge where
  From : ℕ
  To : ℕ
  Weight : ℚ
deriving DecidableEq, Repr

/-- The `ACO` struct: `n` abbreviates `len(Graph.Nodes)`; `edges` is
`Graph.Edges`; a distance entry `none` is the `math.Inf(1)` sentinel. -/
structure ACO where
  n : ℕ
  edges : List Edge
  Distances : ℕ → ℕ → Option ℚ
  Pheromones : ℕ → ℕ → ℚ
  BestDist : ℚ
  BestPath : Option (List ℕ)
  StartNode : ℕ
  GoalNode : ℕ

/-- IEEE-faithful sum step for distances: adding the `Inf` sentinel
absorbs (`x + Inf = Inf`). -/
def addD : Option ℚ → Option ℚ → Option ℚ
  | some a, some b => some (a + b)
  | _, _ => none

/-- IEEE-faithful division by a possibly-infinite distance:
`Q / Inf = 0`. -/
def divD (a : ℚ) : Option ℚ → ℚ
  | some b => a / b
  | none => 0

/-- The probability weight computed for node `i` in `selectNextCity`:
`pheromone^Alpha * (1/distance)^Beta` when `i` is unvisited and directly
connected, and the untouched array value `0.0` otherwise.  The `Inf`
sentinel is never fed to `1/distance`: the connectivity guard rules it
out, exactly as in the source. -/
def probOf (aco : ACO) (visited : ℕ → Bool) (current i : ℕ) : ℚ :=
  if visited i = false then
    match aco.Distances current i with
    | some d => aco.Pheromones current i ^ Alpha * (1 / d) ^ Beta
    | none => 0
  else 0

/-- The eligibility test `!visited[i] && distances[current][i] != Inf`
shared by the scan loops of `selectNextCity`. -/
def eligible (aco : ACO) (visited : ℕ → Bool) (current i : ℕ) : Bool :=
  !(visited i) && (aco.Distances current i).isSome

/-- The cumulative roulette scan of `selectNextCity`: walk the indices in
order, accumulate the weight of each eligible one, and return the first
eligible index whose cumulative weight reaches the draw `r`. -/
def scanLoop (aco : ACO) (visited : ℕ → Bool) (current : ℕ) (r : ℚ) :
    List ℕ → ℚ → Option ℕ
  | [], _ => none
  | i :: rest, cumulative =>
    if eligible aco visited current i then
      if r ≤ cumulative + probOf aco visited current i then some i
      else scanLoop aco visited current r rest
        (cumulative + probOf aco visited current i)
    else scanLoop aco visited current r rest cumulative

/-- The rounding-error fallback loop of `selectNextCity`: the first
eligible index, if any. -/
def firstEligible (aco : ACO) (visited : ℕ → Bool) (current : ℕ) :
    List ℕ → Option ℕ
  | [] => none
  | i :: rest =>
    if eligible aco visited current i then some i
    else firstEligible aco visited current rest

/-- The `sumProb` accumulated by the first loop of `selectNextCity`. -/
def sumProbs (aco : ACO) (visited : ℕ → Bool) (current : ℕ) : ℚ :=
  ((List.range aco.n).map (probOf aco visited current)).sum

/-- `selectNextCity` from `aco.go`.  Go's `-1` failure value becomes
`none`.  The random draw is consumed exactly when the source calls
`aco.Rand.Float64()`, that is only after the `sumProb == 0.0` early
return did not fire; the function returns the remaining stream. -/
def selectNextCity (aco : ACO) (current : ℕ) (visited : ℕ → Bool)
    (draws : ℕ → ℚ) : Option ℕ × (ℕ → ℚ) :=
  if sumProbs aco visited current = 0 then (none, draws)
  else
    match scanLoop aco visited current
        (draws 0 * sumProbs aco visited current) (List.range aco.n) 0 with
    | some i => (some i, fun k => draws (k + 1))
    | none =>
      match firstEligible aco visited current (List.range aco.n) with
      | some i => (some i, fun k => draws (k + 1))
      | none => (none, fun k => draws (k + 1))

/-- Outcome of one `constructSolution` call.  The Go function returns
`(nil, false)` at two distinct program points, kept distinct here: the
dead-end return inside the loop and the budget-exhausted return after
the loop. -/
inductive ConstructResult where
  | success (path : List ℕ)
  | deadEnd
  | stepOver
deriving DecidableEq, Repr

/-- `visited[i] = true` array update. -/
def markVisited (visited : ℕ → Bool) (i : ℕ) : ℕ → Bool :=
  fun j => if j = i then true else visited j

/-- The `for step := 0; step < maxSteps; step++` loop of
`constructSolution`: check the goal, select, move. -/
def constructLoop (aco : ACO) :
    ℕ → ℕ → (ℕ → Bool) → List ℕ → (ℕ → ℚ) → ConstructResult × (ℕ → ℚ)
  | 0, _, _, _, draws => (.stepOver, draws)
  | fuel + 1, current, visited, path, draws =>
    if current = aco.GoalNode then (.success path, draws)
    else
      match selectNextCity aco current visited draws with
      | (none, draws') => (.deadEnd, draws')
      | (some next, draws') =>
        constructLoop aco fuel next (markVisited visited next)
          (path ++ [next]) draws'

/-- `constructSolution` from `aco.go`: start at `StartNode`, budget
`len(nodes) * 2`. -/
def constructSolution (aco : ACO) (draws : ℕ → ℚ) :
    ConstructResult × (ℕ → ℚ) :=
  constructLoop aco (aco.n * 2) aco.StartNode
    (markVisited (fun _ => false) aco.StartNode) [aco.StartNode] draws

/-- The summation loop of `calculatePathDistance` (open mode, no return
edge), with the IEEE-absorbing `addD`. -/
def distFold (aco : ACO) : Option ℚ → List ℕ → Option ℚ
  | acc, u :: v :: rest => distFold aco (addD acc (aco.Distances u v)) (v :: rest)
  | acc, _ => acc

/-- `calculatePathDistance` from `aco.go`: the sum of the distance
entries of consecutive pairs, nothing added for a return edge. -/
def calculatePathDistance (aco : ACO) (path : List ℕ) : Option ℚ :=
  distFold aco (some 0) path

/-- `Step`'s best-solution update for one successful path: replace
`BestDist`/`BestPath` exactly when `dist < aco.BestDist` (strict; the
IEEE comparison is `false` when the computed distance is `Inf`). -/
def updateBest (aco : ACO) (path : List ℕ) : ACO :=
  match calculatePathDistance aco path with
  | some x =>
    if x < aco.BestDist then { aco with BestDist := x, BestPath := some path }
    else aco
  | none => aco

/-- One ant of `Step`'s first phase: construct, and on success score the
path and fold it into the best solution. -/
def antStep (aco : ACO) (draws : ℕ → ℚ) :
    Option (List ℕ × Option ℚ) × ACO × (ℕ → ℚ) :=
  match constructSolution aco draws with
  | (.success path, draws') =>
    (some (path, calculatePathDistance aco path), updateBest aco path, draws')
  | (.deadEnd, draws') => (none, aco, draws')
  | (.stepOver, draws') => (none, aco, draws')

/-- The `for k := 0; k < AntCount; k++` loop of `Step`: the list of
`antResults` in ant order (a failed ant is `none`), the engine with the
best solution updated, and the remaining draw stream. -/
def antsLoop (aco : ACO) (draws : ℕ → ℚ) :
    ℕ → List (Option (List ℕ × Option ℚ)) × ACO × (ℕ → ℚ)
  | 0 => ([], aco, draws)
  | k + 1 =>
    ((antStep aco draws).1 ::
        (antsLoop (antStep aco draws).2.1 (antStep aco draws).2.2 k).1,
      (antsLoop (antStep aco draws).2.1 (antStep aco draws).2.2 k).2.1,
      (antsLoop (antStep aco draws).2.1 (antStep aco draws).2.2 k).2.2)

/-- Phase 2 of `Step`: multiply every in-range pheromone entry whose
distance entry is not the `Inf` sentinel by `(1 - Evaporation)`. -/
def evaporate (aco : ACO) : ℕ → ℕ → ℚ :=
  fun i j =>
    if i < aco.n ∧ j < aco.n ∧ (aco.Distances i j).isSome then
      aco.Pheromones i j * (1 - Evaporation)
    else aco.Pheromones i j

/-- One `pheromones[u][v] += d` array update. -/
def bump (ph : ℕ → ℕ → ℚ) (u v : ℕ) (d : ℚ) : ℕ → ℕ → ℚ :=
  fun a b => if a = u ∧ b = v then ph a b + d else ph a b

/-- The inner deposit loop of `Step`: for each consecutive pair of the
path add the deposit in both directions. -/
def depositPath (d : ℚ) : (ℕ → ℕ → ℚ) → List ℕ → (ℕ → ℕ → ℚ)
  | ph, u :: v :: rest => depositPath d (bump (bump ph u v d) v u d) (v :: rest)
  | ph, _ => ph

/-- Phase 3 of `Step`: every successful candidate deposits `Q / dist`
on the edges of its path; a failed candidate (`none`, Go's
`if !result.Success { continue }`) deposits nothing. -/
def depositAll : (ℕ → ℕ → ℚ) → List (Option (List ℕ × Option ℚ)) → (ℕ → ℕ → ℚ)
  | ph, [] => ph
  | ph, none :: rest => depositAll ph rest
  | ph, some (path, dist) :: rest =>
    depositAll (depositPath (divD Q dist) ph path) rest

/-- `Step` from `aco.go`: run all ants (updating the best solution),
evaporate, then deposit for the successful ants only. -/
def Step (aco : ACO) (draws : ℕ → ℚ) : ACO × (ℕ → ℚ) :=
  ({ (antsLoop aco draws AntCount).2.1 with
      Pheromones := depositAll (evaporate (antsLoop aco draws AntCount).2.1)
        (antsLoop aco draws AntCount).1 },
    (antsLoop aco draws AntCount).2.2)

/-- A sequence of `Step` invocations, as the host drives them. -/
def stepsN : ℕ → ACO → (ℕ → ℚ) → ACO × (ℕ → ℚ)
  | 0, aco, draws => (aco, draws)
  | k + 1, aco, draws => stepsN k (Step aco draws).1 (Step aco draws).2

/-- The `{bestDist, bestPath}` JSON snapshot built by `stepWrapper` in
the wasm `main.go`; a `nil` Go slice marshals to JSON `null`, embedded
as `none`. -/
structure StepResult where
  bestDist : ℚ
  bestPath : Option (List ℕ)
deriving DecidableEq, Repr

/-- `stepWrapper` from the wasm `main.go` (with `globalACO` non-nil):
run one `Step`, then report `BestDist` and `BestPath` as they are. -/
def stepWrapper (aco : ACO) (draws : ℕ → ℚ) :
    StepResult × ACO × (ℕ → ℚ) :=
  ({ bestDist := (Step aco draws).1.BestDist
     bestPath := (Step aco draws).1.BestPath },
    (Step aco draws).1, (Step aco draws).2)

/-- The mutable state threaded through `NewACO`'s `addEdge` closure. -/
structure MatState where
  Distances : ℕ → ℕ → Option ℚ
  Pheromones : ℕ → ℕ → ℚ
  edges : List Edge

/-- `distances[u][v] = w` array update. -/
def setD (D : ℕ → ℕ → Option ℚ) (u v : ℕ) (w : ℚ) : ℕ → ℕ → Option ℚ :=
  fun a b => if a = u ∧ b = v then some w else D a b

/-- `pheromones[u][v] = w` array update. -/
def setP (P : ℕ → ℕ → ℚ) (u v : ℕ) (w : ℚ) : ℕ → ℕ → ℚ :=
  fun a b => if a = u ∧ b = v then w else P a b

/-- The `normalizedWeight` computed by `addEdge`: the raw Euclidean
distance (supplied by the `hypot` parameter, the embedding of
`math.Hypot`) divided by `MaxEuclideanDist`, floored at `0.0001`. -/
def normWeight (coords : ℕ → ℚ × ℚ) (hypot : ℚ → ℚ → ℚ) (u v : ℕ) : ℚ :=
  if hypot ((coords u).1 - (coords v).1) ((coords u).2 - (coords v).2) /
      MaxEuclideanDist < 1/10000 then 1/10000
  else hypot ((coords u).1 - (coords v).1) ((coords u).2 - (coords v).2) /
    MaxEuclideanDist

/-- The `addEdge` closure of `NewACO`: a no-op when the edge already
exists, otherwise write the normalised weight, the initial pheromone and
the reporting edge, symmetrically. -/
def addEdge (coords : ℕ → ℚ × ℚ) (hypot : ℚ → ℚ → ℚ) (s : MatState)
    (u v : ℕ) : MatState :=
  if (s.Distances u v).isSome then s
  else
    { Distances := setD (setD s.Distances u v (normWeight coords hypot u v))
        v u (normWeight coords hypot u v)
      Pheromones := setP (setP s.Pheromones u v InitialPheromone) v u
        InitialPheromone
      edges := s.edges ++ [⟨u, v, normWeight coords hypot u v⟩] }

/-- The ring pass of `NewACO`: edge `(i, (i+1) mod n)` for each `i`. -/
def ringEdges (n : ℕ) : List (ℕ × ℕ) :=
  (List.range n).map (fun i => (i, (i + 1) % n))

/-- The matrices and edge list `NewACO` builds: everything starts at the
`Inf` sentinel / pheromone `0.0`, then the ring pass and the shortcut
pass (the latter adding `(u, v)` only when `u ≠ v`) run `addEdge`. -/
def initMats (nodeCount : ℕ) (coords : ℕ → ℚ × ℚ) (hypot : ℚ → ℚ → ℚ)
    (shortcuts : List (ℕ × ℕ)) : MatState :=
  shortcuts.foldl
    (fun s p => if p.1 ≠ p.2 then addEdge coords hypot s p.1 p.2 else s)
    ((ringEdges nodeCount).foldl (fun s p => addEdge coords hypot s p.1 p.2)
      { Distances := fun _ _ => none, Pheromones := fun _ _ => 0, edges := [] })

/-- `NewACO` from `aco.go`.  `coords` are the random node coordinates,
`hypot` embeds `math.Hypot`, and `shortcuts` is the list of random
`(u, v)` index pairs drawn by the shortcut loop. -/
def NewACO (nodeCount : ℕ) (coords : ℕ → ℚ × ℚ) (hypot : ℚ → ℚ → ℚ)
    (shortcuts : List (ℕ × ℕ)) : ACO :=
  { n := nodeCount
    edges := (initMats nodeCount coords hypot shortcuts).edges
    Distances := (initMats nodeCount coords hypot shortcuts).Distances
    Pheromones := (initMats nodeCount coords hypot shortcuts).Pheromones
    BestDist := MaxFloat64
    BestPath := none
    StartNode := 0
    GoalNode := nodeCount - 1 }

/-- Number of times a path traverses the undirected edge `{i, j}`:
adjacent occurrences of `(i, j)` or `(j, i)`. -/
def edgeUses (i j : ℕ) : List ℕ → ℕ
  | u :: v :: rest =>
    (if (u = i ∧ v = j) ∨ (u = j ∧ v = i) then 1 else 0) + edgeUses i j (v :: rest)
  | _ => 0

/-- Total number of traversals of `{i, j}` by the successful candidates
of a result list. -/
def countEdgeTraversals (i j : ℕ) :
    List (Option (List ℕ × Option ℚ)) → ℕ
  | [] => 0
  | none :: rest => countEdgeTraversals i j rest
  | some (path, _) :: rest => edgeUses i j path + countEdgeTraversals i j rest

/-- Every successful candidate that traverses `{i, j}` has recorded
cost `c`. -/
def traversalCost (i j : ℕ) (c : ℚ) :
    Option (List ℕ × Option ℚ) → Bool
  | none => true
  | some (path, dist) => edgeUses i j path = 0 || dist = some c

/-- The total deposit received by entry `(i, j)` from the successful
candidates of a result list. -/
def successDeposit (i j : ℕ) :
    List (Option (List ℕ × Option ℚ)) → ℚ
  | [] => 0
  | none :: rest => successDeposit i j rest
  | some (path, dist) :: rest =>
    divD Q dist * (edgeUses i j path : ℚ) + successDeposit i j rest

/-- The number of unvisited indices below `n`. -/
def unvisCount (n : ℕ) (visited : ℕ → Bool) : ℕ :=
  ((Finset.range n).filter (fun i => visited i = false)).card

/-- The adjacency relation of the engine's graph: a finite entry of the
distance matrix. -/
def adj (aco : ACO) (u v : ℕ) : Prop := (aco.Distances u v).isSome = true

/-- Symmetry of a distance matrix. -/
def DSym (D : ℕ → ℕ → Option ℚ) : Prop := ∀ i j, D i j = D j i

/-- Symmetry of a pheromone matrix. -/
def PSym (P : ℕ → ℕ → ℚ) : Prop := ∀ i j, P i j = P j i

/-- The consecutive-pair weight sum that §4.3 of the spec describes. -/
def pairSum (w : ℕ → ℕ → ℚ) (path : List ℕ) : ℚ :=
  ((path.zip path.tail).map (fun p => w p.1 p.2)).sum

/-- The open-mode concrete scenario of §8 of the spec: 4 nodes, start 0,
goal 3, edges only 0-1, 1-2, 2-3 with weights `w01, w12, w23`, pheromone
at its initial value `1.0` on every edge. -/
def aco4 (w01 w12 w23 : ℚ) : ACO :=
  { n := 4
    edges := [⟨0, 1, w01⟩, ⟨1, 2, w12⟩, ⟨2, 3, w23⟩]
    Distances := fun i j =>
      if (i = 0 ∧ j = 1) ∨ (i = 1 ∧ j = 0) then some w01
      else if (i = 1 ∧ j = 2) ∨ (i = 2 ∧ j = 1) then some w12
      else if (i = 2 ∧ j = 3) ∨ (i = 3 ∧ j = 2) then some w23
      else none
    Pheromones := fun i j =>
      if (i = 0 ∧ j = 1) ∨ (i = 1 ∧ j = 0) ∨ (i = 1 ∧ j = 2) ∨ (i = 2 ∧ j = 1)
        ∨ (i = 2 ∧ j = 3) ∨ (i = 3 ∧ j = 2) then 1 else 0
    BestDist := MaxFloat64
    BestPath := none
    StartNode := 0
    GoalNode := 3 }

/-- Concrete witness engine: a diamond graph 0-1-3 / 0-2-3 of unit
weights with start 0 and goal 3. -/
def acoW : ACO :=
  { n := 4
    edges := [⟨0, 1, 1⟩, ⟨0, 2, 1⟩, ⟨1, 3, 1⟩, ⟨2, 3, 1⟩]
    Distances := fun i j =>
      if (i = 0 ∧ j = 1) ∨ (i = 1 ∧ j = 0) ∨ (i = 0 ∧ j = 2) ∨ (i = 2 ∧ j = 0)
        ∨ (i = 1 ∧ j = 3) ∨ (i = 3 ∧ j = 1) ∨ (i = 2 ∧ j = 3) ∨ (i = 3 ∧ j = 2)
      then some 1 else none
    Pheromones := fun i j =>
      if (i = 0 ∧ j = 1) ∨ (i = 1 ∧ j = 0) ∨ (i = 0 ∧ j = 2) ∨ (i = 2 ∧ j = 0)
        ∨ (i = 1 ∧ j = 3) ∨ (i = 3 ∧ j = 1) ∨ (i = 2 ∧ j = 3) ∨ (i = 3 ∧ j = 2)
      then 1 else 0
    BestDist := MaxFloat64
    BestPath := none
    StartNode := 0
    GoalNode := 3 }

/-- Witness draw stream for `acoW`: the first ant goes through node 1,
all later ants through node 2. -/
def wdraws : ℕ → ℚ := fun k => if k = 0 then 0 else 9/10

/-- Concrete witness engine with a dead end: three nodes, only edge 0-1,
goal 2, so every ant fails. -/
def acoDead : ACO :=
  { n := 3
    edges := [⟨0, 1, 1⟩]
    Distances := fun i j =>
      if (i = 0 ∧ j = 1) ∨ (i = 1 ∧ j = 0) then some 1 else none
    Pheromones := fun i j =>
      if (i = 0 ∧ j = 1) ∨ (i = 1 ∧ j = 0) then 1 else 0
    BestDist := MaxFloat64
    BestPath := none
    StartNode := 0
    GoalNode := 2 }

/-- Constant draw stream used by the concrete witnesses. -/
def halfDraws : ℕ → ℚ := fun _ => 1/2

end WasmACO

namespace Tsp

/-- The summation loop of the historical closed-tour
`calculatePathDistance` (the matrices of that variant hold plain
floats, no `Inf` sentinel). -/
def tourFold (D : ℕ → ℕ → ℚ) : ℚ → List ℕ → ℚ
  | acc, u :: v :: rest => tourFold D (acc + D u v) (v :: rest)
  | acc, _ => acc

/-- `calculatePathDistance` from the historical closed-tour variant in
`main.go`: the consecutive-pair sum plus
`distances[path[len(path)-1]][path[0]]`.  Go panics on an empty path
(negative index); the evaluator is only ever called on the nonempty
paths the constructor builds, and the embedding returns `0` there. -/
def calculatePathDistance (D : ℕ → ℕ → ℚ) (path : List ℕ) : ℚ :=
  match path with
  | [] => 0
  | p :: rest =>
    tourFold D 0 (p :: rest) + D ((p :: rest).getLast (by simp)) p

end Tsp

namespace WasmACO

/-- An ineligible index keeps the untouched array value `0.0`. -/
theorem probOf_of_not_eligible (aco : ACO) (visited : ℕ → Bool)
    (current i : ℕ) (h : eligible aco visited current i = false) :
    probOf aco visited current i = 0 := by
  unfold eligible at h
  unfold probOf
  by_cases hv : visited i = false
  · rw [if_pos hv]
    cases hd : aco.Distances current i with
    | none => rfl
    | some d => rw [hv, hd] at h; simp at h
  · rw [if_neg hv]

/-- A nonzero probability entry is eligible. -/
theorem eligible_of_probOf_ne_zero (aco : ACO) (visited : ℕ → Bool)
    (current i : ℕ) (h : probOf aco visited current i ≠ 0) :
    eligible aco visited current i = true := by
  by_cases he : eligible aco visited current i = true
  · exact he
  · exact absurd (probOf_of_not_eligible aco visited current i
      (Bool.not_eq_true _ ▸ Bool.eq_false_iff.mpr he)) h

/-- The roulette scan only returns an element of its index list that is
eligible. -/
theorem scanLoop_sound (aco : ACO) (visited : ℕ → Bool) (current : ℕ)
    (r : ℚ) :
    ∀ (l : List ℕ) (cum : ℚ) (i : ℕ),
      scanLoop aco visited current r l cum = some i →
      i ∈ l ∧ eligible aco visited current i = true := by
  intro l
  induction l with
  | nil => intro cum i h; simp [scanLoop] at h
  | cons j rest ih =>
    intro cum i h
    unfold scanLoop at h
    by_cases he : eligible aco visited current j = true
    · rw [if_pos he] at h
      by_cases hr : r ≤ cum + probOf aco visited current j
      · rw [if_pos hr] at h
        injection h with h
        subst h
        exact ⟨List.mem_cons_self _ _, he⟩
      · rw [if_neg hr] at h
        obtain ⟨hm, hel⟩ := ih _ _ h
        exact ⟨List.mem_cons_of_mem _ hm, hel⟩
    · rw [if_neg he] at h
      obtain ⟨hm, hel⟩ := ih _ _ h
      exact ⟨List.mem_cons_of_mem _ hm, hel⟩

/-- The fallback scan only returns an element of its index list that is
eligible. -/
theorem firstEligible_sound (aco : ACO) (visited : ℕ → Bool) (current : ℕ) :
    ∀ (l : List ℕ) (i : ℕ),
      firstEligible aco visited current l = some i →
      i ∈ l ∧ eligible aco visited current i = true := by
  intro l
  induction l with
  | nil => intro i h; simp [firstEligible] at h
  | cons j rest ih =>
    intro i h
    unfold firstEligible at h
    by_cases he : eligible aco visited current j = true
    · rw [if_pos he] at h
      injection h with h
      subst h
      exact ⟨List.mem_cons_self _ _, he⟩
    · rw [if_neg he] at h
      obtain ⟨hm, hel⟩ := ih _ h
      exact ⟨List.mem_cons_of_mem _ hm, hel⟩

/-- The fallback scan fails exactly when no index of its list is
eligible. -/
theorem firstEligible_eq_none (aco : ACO) (visited : ℕ → Bool) (current : ℕ) :
    ∀ l : List ℕ,
      firstEligible aco visited current l = none ↔
        ∀ i ∈ l, eligible aco visited current i = false := by
  intro l
  induction l with
  | nil => simp [firstEligible]
  | cons j rest ih =>
    unfold firstEligible
    by_cases he : eligible aco visited current j = true
    · rw [if_pos he]
      simp [he]
    · rw [if_neg he]
      rw [ih]
      constructor
      · intro hall i hi
        rcases List.mem_cons.mp hi with rfl | hi
        · exact Bool.eq_false_iff.mpr he
        · exact hall i hi
      · intro hall i hi
        exact hall i (List.mem_cons_of_mem _ hi)

/-- Selection keeps returning `some` whenever some probability entry is
nonzero. -/
theorem selectNextCity_fst_none_iff (aco : ACO) (current : ℕ)
    (visited : ℕ → Bool) (draws : ℕ → ℚ) :
    (selectNextCity aco current visited draws).1 = none ↔
      sumProbs aco visited current = 0 := by
  unfold selectNextCity
  by_cases hs : sumProbs aco visited current = 0
  · rw [if_pos hs]
    simp [hs]
  · rw [if_neg hs]
    constructor
    · intro h
      exfalso
      have hex : ∃ i ∈ List.range aco.n, probOf aco visited current i ≠ 0 := by
        by_contra hall
        push_neg at hall
        refine hs (List.sum_eq_zero ?_)
        intro x hx
        obtain ⟨i, hi, rfl⟩ := List.mem_map.mp hx
        exact hall i hi
      obtain ⟨i, hi, hp⟩ := hex
      have hel := eligible_of_probOf_ne_zero aco visited current i hp
      cases hscan : scanLoop aco visited current
          (draws 0 * sumProbs aco visited current) (List.range aco.n) 0 with
      | some j => rw [hscan] at h; simp at h
      | none =>
        rw [hscan] at h
        cases hfb : firstEligible aco visited current (List.range aco.n) with
        | some j => rw [hfb] at h; simp at h
        | none =>
          rw [firstEligible_eq_none] at hfb
          rw [hfb i hi] at hel
          exact Bool.false_ne_true hel
    · intro h
      exact absurd h hs

/-- A selected node is in range, unvisited and directly connected. -/
theorem selectNextCity_fst_some (aco : ACO) (current : ℕ)
    (visited : ℕ → Bool) (draws : ℕ → ℚ) (j : ℕ)
    (h : (selectNextCity aco current visited draws).1 = some j) :
    j < aco.n ∧ visited j = false ∧ (aco.Distances current j).isSome = true := by
  unfold selectNextCity at h
  by_cases hs : sumProbs aco visited current = 0
  · rw [if_pos hs] at h
    simp at h
  · rw [if_neg hs] at h
    have main : j ∈ List.range aco.n ∧ eligible aco visited current j = true := by
      cases hscan : scanLoop aco visited current
          (draws 0 * sumProbs aco visited current) (List.range aco.n) 0 with
      | some i =>
        rw [hscan] at h
        injection h with h
        subst h
        exact scanLoop_sound aco visited current _ _ _ _ hscan
      | none =>
        rw [hscan] at h
        cases hfb : firstEligible aco visited current (List.range aco.n) with
        | some i =>
          rw [hfb] at h
          injection h with h
          subst h
          exact firstEligible_sound aco visited current _ _ hfb
        | none => rw [hfb] at h; simp at h
    obtain ⟨hm, hel⟩ := main
    unfold eligible at hel
    rw [Bool.and_eq_true] at hel
    refine ⟨List.mem_range.mp hm, ?_, hel.2⟩
    cases hvj : visited j
    · rfl
    · rw [hvj] at hel
      simp at hel

/-- C5: selection fails iff the summed scores vanish; a selected node is
unvisited and connected. -/
theorem C5_selection_guard (aco : ACO) (current : ℕ) (visited : ℕ → Bool)
    (draws : ℕ → ℚ) :
    ((selectNextCity aco current visited draws).1 = none ↔
      sumProbs aco visited current = 0) ∧
    (∀ j, (selectNextCity aco current visited draws).1 = some j →
      visited j = false ∧ (aco.Distances current j).isSome = true) :=
  ⟨selectNextCity_fst_none_iff aco current visited draws,
   fun j h => (selectNextCity_fst_some aco current visited draws j h).2⟩

theorem unvisCount_markVisited (n : ℕ) (visited : ℕ → Bool) (next : ℕ)
    (hn : next < n) (hv : visited next = false) :
    unvisCount n (markVisited visited next) = unvisCount n visited - 1 := by
  unfold unvisCount
  have hset : (Finset.range n).filter (fun i => markVisited visited next i = false) =
      ((Finset.range n).filter (fun i => visited i = false)).erase next := by
    ext i
    simp only [Finset.mem_filter, Finset.mem_erase, Finset.mem_range, markVisited]
    constructor
    · intro ⟨hi, hm⟩
      by_cases hin : i = next
      · rw [if_pos hin] at hm; exact absurd hm (by simp)
      · rw [if_neg hin] at hm; exact ⟨hin, hi, hm⟩
    · intro ⟨hin, hi, hm⟩
      refine ⟨hi, ?_⟩
      rw [if_neg hin]
      exact hm
  rw [hset]
  refine Finset.card_erase_of_mem ?_
  simp only [Finset.mem_filter, Finset.mem_range]
  exact ⟨hn, hv⟩

theorem unvisCount_pos (n : ℕ) (visited : ℕ → Bool) (next : ℕ)
    (hn : next < n) (hv : visited next = false) :
    0 < unvisCount n visited := by
  refine Finset.card_pos.mpr ⟨next, ?_⟩
  simp only [Finset.mem_filter, Finset.mem_range]
  exact ⟨hn, hv⟩

/-- With more fuel than unvisited nodes, the budget-exhausted return of
`constructSolution` is unreachable: every move visits a fresh node. -/
theorem constructLoop_ne_stepOver (aco : ACO) :
    ∀ (fuel : ℕ) (current : ℕ) (visited : ℕ → Bool) (path : List ℕ)
      (draws : ℕ → ℚ),
      unvisCount aco.n visited < fuel →
      (constructLoop aco fuel current visited path draws).1 ≠ .stepOver := by
  intro fuel
  induction fuel with
  | zero => intro current visited path draws h; omega
  | succ fuel ih =>
    intro current visited path draws h
    unfold constructLoop
    by_cases hg : current = aco.GoalNode
    · rw [if_pos hg]
      intro hc
      exact ConstructResult.noConfusion hc
    · rw [if_neg hg]
      cases hsel : selectNextCity aco current visited draws with
      | mk o draws' =>
        cases o with
        | none => intro hc; exact ConstructResult.noConfusion hc
        | some next =>
          have hprops := selectNextCity_fst_some aco current visited draws next
            (by rw [hsel])
          have hcount := unvisCount_markVisited aco.n visited next hprops.1
            hprops.2.1
          have hpos := unvisCount_pos aco.n visited next hprops.1 hprops.2.1
          exact ih next (markVisited visited next) (path ++ [next]) draws'
            (by omega)

/-- Invariant of the construction loop: a successful return extends the
accumulated simple path to the goal along matrix edges. -/
theorem constructLoop_success_spec (aco : ACO) :
    ∀ (fuel current : ℕ) (visited : ℕ → Bool) (path : List ℕ)
      (draws : ℕ → ℚ) (p : List ℕ),
      (constructLoop aco fuel current visited path draws).1 = .success p →
      path ≠ [] →
      path.getLast? = some current →
      (∀ x ∈ path, visited x = true) →
      path.Nodup →
      List.Chain' (adj aco) path →
      p.head? = path.head? ∧ p.getLast? = some aco.GoalNode ∧ p.Nodup ∧
        List.Chain' (adj aco) p := by
  intro fuel
  induction fuel with
  | zero =>
    intro current visited path draws p h
    exact absurd h (by unfold constructLoop; intro hc; exact ConstructResult.noConfusion hc)
  | succ fuel ih =>
    intro current visited path draws p h hne hlast hvis hnd hch
    unfold constructLoop at h
    by_cases hg : current = aco.GoalNode
    · rw [if_pos hg] at h
      injection h with h
      subst h
      exact ⟨rfl, by rw [hlast, hg], hnd, hch⟩
    · rw [if_neg hg] at h
      cases hsel : selectNextCity aco current visited draws with
      | mk o draws' =>
        rw [hsel] at h
        cases o with
        | none => exact absurd h (by intro hc; exact ConstructResult.noConfusion hc)
        | some next =>
          have hprops := selectNextCity_fst_some aco current visited draws next
            (by rw [hsel])
          have hnmem : next ∉ path := by
            intro hmem
            rw [hvis next hmem] at hprops
            exact absurd hprops.2.1 (by simp)
          have spec := ih next (markVisited visited next) (path ++ [next]) draws' p h
            (by simp)
            (by simp)
            (by
              intro x hx
              rcases List.mem_append.mp hx with hx | hx
              · unfold markVisited
                by_cases hxn : x = next
                · rw [if_pos hxn]
                · rw [if_neg hxn]; exact hvis x hx
              · unfold markVisited
                rw [if_pos (List.mem_singleton.mp hx)])
            (by
              rw [List.nodup_append]
              exact ⟨hnd, List.nodup_singleton _, by
                intro a ha hb
                rw [List.mem_singleton.mp hb] at ha
                exact hnmem ha⟩)
            (by
              rw [List.chain'_append]
              refine ⟨hch, List.chain'_singleton _, ?_⟩
              intro x hx y hy
              rw [hlast] at hx
              injection hx with hx
              rw [List.head?_cons] at hy
              injection hy with hy
              subst hx
              subst hy
              exact hprops.2.2)
          refine ⟨?_, spec.2⟩
          rw [spec.1]
          cases path with
          | nil => exact absurd rfl hne
          | cons a t => simp

/-- A successful construction yields a simple path from the start node
to the goal node along matrix edges. -/
theorem constructSolution_success_spec (aco : ACO) (draws : ℕ → ℚ)
    (p : List ℕ)
    (h : (constructSolution aco draws).1 = .success p) :
    p.head? = some aco.StartNode ∧ p.getLast? = some aco.GoalNode ∧
      p.Nodup ∧ List.Chain' (adj aco) p := by
  unfold constructSolution at h
  have spec := constructLoop_success_spec aco (aco.n * 2) aco.StartNode
    (markVisited (fun _ => false) aco.StartNode) [aco.StartNode] draws p h
    (by simp) (by simp)
    (by
      intro x hx
      rw [List.mem_singleton.mp hx]
      unfold markVisited
      rw [if_pos rfl])
    (List.nodup_singleton _) (List.chain'_singleton _)
  refine ⟨?_, spec.2⟩
  rw [spec.1]
  simp

theorem unvisCount_false (n : ℕ) : unvisCount n (fun _ => false) = n := by
  unfold unvisCount
  rw [Finset.filter_true_of_mem (by intro i hi; rfl)]
  exact Finset.card_range n

/-- `constructSolution` never runs out of its `2 * N` step budget: every
move visits a fresh node, so at most `N - 1` moves ever happen. -/
theorem constructSolution_ne_stepOver (aco : ACO) (draws : ℕ → ℚ)
    (hstart : aco.StartNode < aco.n) :
    (constructSolution aco draws).1 ≠ .stepOver := by
  unfold constructSolution
  refine constructLoop_ne_stepOver aco (aco.n * 2) aco.StartNode _ _ draws ?_
  rw [unvisCount_markVisited aco.n (fun _ => false) aco.StartNode hstart rfl,
    unvisCount_false]
  omega

/-- The two directed `+= deposit` writes of one consecutive pair, as a
single arithmetic fact about an arbitrary entry. -/
theorem bump_bump_apply (ph : ℕ → ℕ → ℚ) (u v : ℕ) (d : ℚ) (i j : ℕ) :
    bump (bump ph u v d) v u d i j =
      ph i j + (if i = u ∧ j = v then d else 0) +
        (if i = v ∧ j = u then d else 0) := by
  unfold bump
  split_ifs <;> ring

/-- Depositing along a path adds the deposit once per traversal of the
(undirected, off-diagonal) edge `{i, j}`. -/
theorem depositPath_apply (d : ℚ) (i j : ℕ) (hij : i ≠ j) :
    ∀ (path : List ℕ) (ph : ℕ → ℕ → ℚ),
      depositPath d ph path i j = ph i j + d * (edgeUses i j path : ℚ) := by
  intro path
  induction path with
  | nil => intro ph; unfold depositPath edgeUses; push_cast; ring
  | cons u tail ih =>
    intro ph
    cases tail with
    | nil => unfold depositPath edgeUses; push_cast; ring
    | cons v rest =>
      unfold depositPath edgeUses
      rw [ih, bump_bump_apply]
      by_cases h1 : i = u ∧ j = v
      · have h2 : ¬(i = v ∧ j = u) := by
          rintro ⟨hv, hu⟩
          exact hij (h1.1.trans hu.symm)
        rw [if_pos h1, if_neg h2,
          if_pos (Or.inl ⟨h1.1.symm, h1.2.symm⟩)]
        push_cast
        ring
      · by_cases h3 : i = v ∧ j = u
        · rw [if_neg h1, if_pos h3, if_pos (Or.inr ⟨h3.2.symm, h3.1.symm⟩)]
          push_cast
          ring
        · have h4 : ¬((u = i ∧ v = j) ∨ (u = j ∧ v = i)) := by
            rintro (⟨hu, hv⟩ | ⟨hu, hv⟩)
            · exact h1 ⟨hu.symm, hv.symm⟩
            · exact h3 ⟨hv.symm, hu.symm⟩
          rw [if_neg h1, if_neg h3, if_neg h4]
          push_cast
          ring

/-- The deposit phase adds exactly the successful candidates' deposits
to an off-diagonal entry. -/
theorem depositAll_apply (i j : ℕ) (hij : i ≠ j) :
    ∀ (results : List (Option (List ℕ × Option ℚ))) (ph : ℕ → ℕ → ℚ),
      depositAll ph results i j = ph i j + successDeposit i j results := by
  intro results
  induction results with
  | nil => intro ph; unfold depositAll successDeposit; ring
  | cons r rest ih =>
    intro ph
    cases r with
    | none =>
      unfold depositAll successDeposit
      rw [ih]
    | some pr =>
      cases pr with
      | mk path dist =>
        unfold depositAll successDeposit
        rw [ih, depositPath_apply (divD Q dist) i j hij]
        ring

/-- Fields of the engine other than the best solution survive
`updateBest`. -/
theorem updateBest_preserves (aco : ACO) (path : List ℕ) :
    (updateBest aco path).n = aco.n ∧
    (updateBest aco path).Distances = aco.Distances ∧
    (updateBest aco path).Pheromones = aco.Pheromones ∧
    (updateBest aco path).StartNode = aco.StartNode ∧
    (updateBest aco path).GoalNode = aco.GoalNode := by
  unfold updateBest
  cases calculatePathDistance aco path with
  | none => exact ⟨rfl, rfl, rfl, rfl, rfl⟩
  | some x =>
    dsimp only
    by_cases hx : x < aco.BestDist
    · rw [if_pos hx]
      exact ⟨rfl, rfl, rfl, rfl, rfl⟩
    · rw [if_neg hx]
      exact ⟨rfl, rfl, rfl, rfl, rfl⟩

/-- Fields of the engine other than the best solution survive one ant. -/
theorem antStep_preserves (aco : ACO) (draws : ℕ → ℚ) :
    (antStep aco draws).2.1.n = aco.n ∧
    (antStep aco draws).2.1.Distances = aco.Distances ∧
    (antStep aco draws).2.1.Pheromones = aco.Pheromones ∧
    (antStep aco draws).2.1.StartNode = aco.StartNode ∧
    (antStep aco draws).2.1.GoalNode = aco.GoalNode := by
  unfold antStep
  cases hc : constructSolution aco draws with
  | mk r d' =>
    cases r with
    | success path => exact updateBest_preserves aco path
    | deadEnd => exact ⟨rfl, rfl, rfl, rfl, rfl⟩
    | stepOver => exact ⟨rfl, rfl, rfl, rfl, rfl⟩

/-- Fields of the engine other than the best solution survive the whole
ant loop. -/
theorem antsLoop_preserves (k : ℕ) :
    ∀ (aco : ACO) (draws : ℕ → ℚ),
      (antsLoop aco draws k).2.1.n = aco.n ∧
      (antsLoop aco draws k).2.1.Distances = aco.Distances ∧
      (antsLoop aco draws k).2.1.Pheromones = aco.Pheromones ∧
      (antsLoop aco draws k).2.1.StartNode = aco.StartNode ∧
      (antsLoop aco draws k).2.1.GoalNode = aco.GoalNode := by
  induction k with
  | zero => intro aco draws; exact ⟨rfl, rfl, rfl, rfl, rfl⟩
  | succ k ih =>
    intro aco draws
    unfold antsLoop
    obtain ⟨h1, h2, h3, h4, h5⟩ :=
      ih (antStep aco draws).2.1 (antStep aco draws).2.2
    obtain ⟨g1, g2, g3, g4, g5⟩ := antStep_preserves aco draws
    exact ⟨h1.trans g1, h2.trans g2, h3.trans g3, h4.trans g4, h5.trans g5⟩

/-- `evaporate` only reads the node count, the distances and the
pheromones. -/
theorem evaporate_congr (a b : ACO) (hn : a.n = b.n)
    (hD : a.Distances = b.Distances) (hP : a.Pheromones = b.Pheromones) :
    evaporate a = evaporate b := by
  unfold evaporate
  rw [hn, hD, hP]

/-- The pheromone entry written by `Step` at an off-diagonal entry:
post-evaporation value plus the successful candidates' deposits. -/
theorem Step_Pheromones_apply (aco : ACO) (draws : ℕ → ℚ) (i j : ℕ)
    (hij : i ≠ j) :
    (Step aco draws).1.Pheromones i j =
      evaporate aco i j + successDeposit i j (antsLoop aco draws AntCount).1 := by
  have hshow : (Step aco draws).1.Pheromones =
      depositAll (evaporate (antsLoop aco draws AntCount).2.1)
        (antsLoop aco draws AntCount).1 := rfl
  rw [hshow, depositAll_apply i j hij]
  obtain ⟨h1, h2, h3, _, _⟩ := antsLoop_preserves AntCount aco draws
  rw [evaporate_congr (antsLoop aco draws AntCount).2.1 aco h1 h2 h3]

/-- When every traversal of `{i, j}` belongs to a candidate of recorded
cost `c`, the deposits received by `(i, j)` total `Q/c` per traversal. -/
theorem successDeposit_count (i j : ℕ) (c : ℚ) :
    ∀ results : List (Option (List ℕ × Option ℚ)),
      results.all (traversalCost i j c) = true →
      successDeposit i j results =
        Q / c * (countEdgeTraversals i j results : ℚ) := by
  intro results
  induction results with
  | nil =>
    intro h
    unfold successDeposit countEdgeTraversals
    push_cast
    ring
  | cons r rest ih =>
    intro h
    rw [List.all_cons, Bool.and_eq_true] at h
    cases r with
    | none =>
      unfold successDeposit countEdgeTraversals
      exact ih h.2
    | some pr =>
      cases pr with
      | mk path dist =>
        unfold successDeposit countEdgeTraversals
        rw [ih h.2]
        have head := h.1
        unfold traversalCost at head
        rw [Bool.or_eq_true] at head
        rcases head with hz | hc
        · rw [of_decide_eq_true hz]
          push_cast
          ring
        · rw [of_decide_eq_true hc]
          have hdiv : divD Q (some c) = Q / c := rfl
          rw [hdiv]
          push_cast
          ring

/-- C1: evaporation precedes deposit.  An edge entry inside the matrix
bounds, traversed by exactly one successful candidate of the step whose
cost is `c`, ends the step at `p*(1-r) + Q/c` (never `(p + Q/c)*(1-r)`). -/
theorem C1_evaporation_before_deposit (aco : ACO) (draws : ℕ → ℚ)
    (i j : ℕ) (c : ℚ) (hij : i ≠ j) (hi : i < aco.n) (hj : j < aco.n)
    (hedge : (aco.Distances i j).isSome = true)
    (hcount : countEdgeTraversals i j (antsLoop aco draws AntCount).1 = 1)
    (hcost : (antsLoop aco draws AntCount).1.all (traversalCost i j c) = true) :
    (Step aco draws).1.Pheromones i j =
      aco.Pheromones i j * (1 - Evaporation) + Q / c := by
  rw [Step_Pheromones_apply aco draws i j hij,
    successDeposit_count i j c _ hcost, hcount]
  unfold evaporate
  rw [if_pos ⟨hi, hj, hedge⟩]
  push_cast
  ring

/-- C6: a failed construction deposits nothing.  Every off-diagonal
pheromone entry ends the step at its post-evaporation value plus only
the successful candidates' deposits. -/
theorem C6_no_reward_without_success (aco : ACO) (draws : ℕ → ℚ)
    (i j : ℕ) (hij : i ≠ j) :
    (Step aco draws).1.Pheromones i j =
      evaporate aco i j +
        successDeposit i j (antsLoop aco draws AntCount).1 :=
  Step_Pheromones_apply aco draws i j hij

theorem updateBest_le (aco : ACO) (path : List ℕ) :
    (updateBest aco path).BestDist ≤ aco.BestDist := by
  unfold updateBest
  cases calculatePathDistance aco path with
  | none => exact le_refl _
  | some x =>
    dsimp only
    by_cases hx : x < aco.BestDist
    · rw [if_pos hx]
      exact le_of_lt hx
    · rw [if_neg hx]

theorem antStep_best_le (aco : ACO) (draws : ℕ → ℚ) :
    (antStep aco draws).2.1.BestDist ≤ aco.BestDist := by
  unfold antStep
  cases hc : constructSolution aco draws with
  | mk r d' =>
    cases r with
    | success path => exact updateBest_le aco path
    | deadEnd => exact le_refl _
    | stepOver => exact le_refl _

theorem antsLoop_best_le (k : ℕ) :
    ∀ (aco : ACO) (draws : ℕ → ℚ),
      (antsLoop aco draws k).2.1.BestDist ≤ aco.BestDist := by
  induction k with
  | zero => intro aco draws; exact le_refl _
  | succ k ih =>
    intro aco draws
    unfold antsLoop
    dsimp only
    exact le_trans (ih (antStep aco draws).2.1 (antStep aco draws).2.2)
      (antStep_best_le aco draws)

theorem Step_fst_BestDist (aco : ACO) (draws : ℕ → ℚ) :
    (Step aco draws).1.BestDist = (antsLoop aco draws AntCount).2.1.BestDist := by
  unfold Step
  dsimp only

theorem Step_fst_BestPath (aco : ACO) (draws : ℕ → ℚ) :
    (Step aco draws).1.BestPath = (antsLoop aco draws AntCount).2.1.BestPath := by
  unfold Step
  dsimp only

theorem Step_best_le (aco : ACO) (draws : ℕ → ℚ) :
    (Step aco draws).1.BestDist ≤ aco.BestDist := by
  rw [Step_fst_BestDist]
  exact antsLoop_best_le AntCount aco draws

theorem stepsN_best_le : ∀ (k : ℕ) (aco : ACO) (draws : ℕ → ℚ),
    ((stepsN k aco draws).1).BestDist ≤ aco.BestDist
  | 0, _, _ => le_refl _
  | k + 1, aco, draws =>
    le_trans (stepsN_best_le k (Step aco draws).1 (Step aco draws).2)
      (Step_best_le aco draws)

/-- What `updateBest` can do: leave both components alone, or install
this path with its strictly smaller cost. -/
theorem updateBest_cases (aco : ACO) (path : List ℕ) :
    ((updateBest aco path).BestDist = aco.BestDist ∧
      (updateBest aco path).BestPath = aco.BestPath) ∨
    (calculatePathDistance aco path = some (updateBest aco path).BestDist ∧
      (updateBest aco path).BestDist < aco.BestDist ∧
      (updateBest aco path).BestPath = some path) := by
  unfold updateBest
  cases hd : calculatePathDistance aco path with
  | none => left; exact ⟨rfl, rfl⟩
  | some x =>
    dsimp only
    by_cases hx : x < aco.BestDist
    · rw [if_pos hx]
      right
      exact ⟨rfl, hx, rfl⟩
    · rw [if_neg hx]
      left
      exact ⟨rfl, rfl⟩

/-- What one ant can do to the engine: nothing (and report `none`), or
report a success whose recorded distance drives `updateBest`. -/
theorem antStep_characterize (aco : ACO) (draws : ℕ → ℚ) :
    ((antStep aco draws).1 = none ∧ (antStep aco draws).2.1 = aco) ∨
    (∃ path, (antStep aco draws).1 =
        some (path, calculatePathDistance aco path) ∧
      (antStep aco draws).2.1 = updateBest aco path) := by
  unfold antStep
  cases hc : constructSolution aco draws with
  | mk r d' =>
    cases r with
    | success path => right; exact ⟨path, rfl, rfl⟩
    | deadEnd => left; exact ⟨rfl, rfl⟩
    | stepOver => left; exact ⟨rfl, rfl⟩

/-- Across the whole ant loop, the best solution is either untouched or
both of its components come from one strictly improving successful
candidate of the result list. -/
theorem antsLoop_best_cases (k : ℕ) :
    ∀ (aco : ACO) (draws : ℕ → ℚ),
      ((antsLoop aco draws k).2.1.BestDist = aco.BestDist ∧
        (antsLoop aco draws k).2.1.BestPath = aco.BestPath) ∨
      (∃ path c, some (path, some c) ∈ (antsLoop aco draws k).1 ∧
        c < aco.BestDist ∧ (antsLoop aco draws k).2.1.BestDist = c ∧
        (antsLoop aco draws k).2.1.BestPath = some path) := by
  induction k with
  | zero => intro aco draws; left; exact ⟨rfl, rfl⟩
  | succ k ih =>
    intro aco draws
    unfold antsLoop
    dsimp only
    rcases antStep_characterize aco draws with ⟨hr, ha⟩ | ⟨path, hr, ha⟩
    · rcases ih (antStep aco draws).2.1 (antStep aco draws).2.2 with
        ⟨h1, h2⟩ | ⟨p, c, hm, hlt, h1, h2⟩
      · left
        exact ⟨h1.trans (congrArg ACO.BestDist ha),
          h2.trans (congrArg ACO.BestPath ha)⟩
      · right
        rw [ha] at hlt
        exact ⟨p, c, List.mem_cons_of_mem _ hm, hlt, h1, h2⟩
    · rcases updateBest_cases aco path with ⟨hb1, hb2⟩ | ⟨hd, hlt, hb2⟩
      · rcases ih (antStep aco draws).2.1 (antStep aco draws).2.2 with
          ⟨h1, h2⟩ | ⟨p, c, hm, hlt', h1, h2⟩
        · left
          exact ⟨h1.trans ((congrArg ACO.BestDist ha).trans hb1),
            h2.trans ((congrArg ACO.BestPath ha).trans hb2)⟩
        · right
          rw [ha, hb1] at hlt'
          exact ⟨p, c, List.mem_cons_of_mem _ hm, hlt', h1, h2⟩
      · have hhead : (antStep aco draws).1 =
            some (path, some (updateBest aco path).BestDist) := by
          rw [hr, hd]
        rcases ih (antStep aco draws).2.1 (antStep aco draws).2.2 with
          ⟨h1, h2⟩ | ⟨p, c, hm, hlt', h1, h2⟩
        · right
          refine ⟨path, (updateBest aco path).BestDist, ?_, hlt, ?_, ?_⟩
          · rw [hhead]
            exact List.mem_cons_self _ _
          · exact h1.trans (congrArg ACO.BestDist ha)
          · exact h2.trans ((congrArg ACO.BestPath ha).trans hb2)
        · right
          rw [ha] at hlt'
          exact ⟨p, c, List.mem_cons_of_mem _ hm, lt_trans hlt' hlt, h1, h2⟩

/-- C2: open-mode construction starts at the start node, succeeds
exactly by reaching the goal, and never exhausts its `2 * N` budget (so
failure only comes from a dead end); no return edge is appended. -/
theorem C2_open_mode_outcomes (aco : ACO) (draws : ℕ → ℚ)
    (hstart : aco.StartNode < aco.n) :
    (∀ p, (constructSolution aco draws).1 = .success p →
      p.head? = some aco.StartNode ∧ p.getLast? = some aco.GoalNode) ∧
    (constructSolution aco draws).1 ≠ .stepOver :=
  ⟨fun p h => ⟨(constructSolution_success_spec aco draws p h).1,
      (constructSolution_success_spec aco draws p h).2.1⟩,
    constructSolution_ne_stepOver aco draws hstart⟩

/-- C4: best cost is non-increasing across any number of steps, and one
step either leaves the best solution alone or installs both components
of one strictly improving successful candidate; a tying candidate never
replaces it. -/
theorem C4_monotonic_best (aco : ACO) (draws : ℕ → ℚ) :
    (∀ k, ((stepsN k aco draws).1).BestDist ≤ aco.BestDist) ∧
    (((Step aco draws).1.BestDist = aco.BestDist ∧
        (Step aco draws).1.BestPath = aco.BestPath) ∨
      (∃ path c, some (path, some c) ∈ (antsLoop aco draws AntCount).1 ∧
        c < aco.BestDist ∧ (Step aco draws).1.BestDist = c ∧
        (Step aco draws).1.BestPath = some path)) ∧
    ((∀ path c, some (path, some c) ∈ (antsLoop aco draws AntCount).1 →
        aco.BestDist ≤ c) →
      (Step aco draws).1.BestDist = aco.BestDist ∧
      (Step aco draws).1.BestPath = aco.BestPath) := by
  refine ⟨fun k => stepsN_best_le k aco draws, ?_, ?_⟩
  · rw [Step_fst_BestDist, Step_fst_BestPath]
    exact antsLoop_best_cases AntCount aco draws
  · intro hall
    rcases antsLoop_best_cases AntCount aco draws with
      ⟨h1, h2⟩ | ⟨p, c, hm, hlt, h1, h2⟩
    · rw [Step_fst_BestDist, Step_fst_BestPath]
      exact ⟨h1, h2⟩
    · exact absurd hlt (not_lt.mpr (hall p c hm))

/-- An ant that reports no candidate leaves the engine untouched. -/
theorem antStep_none_engine (aco : ACO) (draws : ℕ → ℚ)
    (h : (antStep aco draws).1 = none) : (antStep aco draws).2.1 = aco := by
  rcases antStep_characterize aco draws with ⟨_, ha⟩ | ⟨path, hr, _⟩
  · exact ha
  · rw [hr] at h
    exact absurd h (by simp)

/-- A step in which every ant failed leaves the engine's best solution
untouched. -/
theorem antsLoop_allfail_best (k : ℕ) :
    ∀ (aco : ACO) (draws : ℕ → ℚ),
      (antsLoop aco draws k).1 = List.replicate k none →
      (antsLoop aco draws k).2.1 = aco := by
  induction k with
  | zero => intro aco draws _; rfl
  | succ k ih =>
    intro aco draws h
    unfold antsLoop at h ⊢
    dsimp only at h ⊢
    rw [List.replicate_succ] at h
    injection h with h1 h2
    rw [ih _ _ h2]
    exact antStep_none_engine aco draws h1

/-- C9 (amended): the snapshot reports the numeric `BestDist` and the
`BestPath` slice as they stand; when no candidate of the step succeeded
they are exactly the engine's previous values — for a fresh engine the
numeric sentinel `MaxFloat64` and the `nil` path, not an absent cost. -/
theorem C9_no_success_snapshot (aco : ACO) (draws : ℕ → ℚ)
    (h : (antsLoop aco draws AntCount).1 = List.replicate AntCount none) :
    (stepWrapper aco draws).1.bestDist = aco.BestDist ∧
    (stepWrapper aco draws).1.bestPath = aco.BestPath := by
  have he := antsLoop_allfail_best AntCount aco draws h
  constructor
  · have h1 : (stepWrapper aco draws).1.bestDist = (Step aco draws).1.BestDist := by
      unfold stepWrapper
      dsimp only
    rw [h1, Step_fst_BestDist]
    exact congrArg ACO.BestDist he
  · have h2 : (stepWrapper aco draws).1.bestPath = (Step aco draws).1.BestPath := by
      unfold stepWrapper
      dsimp only
    rw [h2, Step_fst_BestPath]
    exact congrArg ACO.BestPath he

/-- C10: a successful open-mode construction on a generated engine
yields a duplicate-free path from node `0` to node `N - 1` whose
consecutive pairs all have finite distance entries. -/
theorem C10_success_path_invariants (nodeCount : ℕ) (coords : ℕ → ℚ × ℚ)
    (hypot : ℚ → ℚ → ℚ) (shortcuts : List (ℕ × ℕ)) (draws : ℕ → ℚ)
    (p : List ℕ)
    (h : (constructSolution (NewACO nodeCount coords hypot shortcuts)
      draws).1 = .success p) :
    p.head? = some 0 ∧ p.getLast? = some (nodeCount - 1) ∧ p.Nodup ∧
      List.Chain' (adj (NewACO nodeCount coords hypot shortcuts)) p :=
  constructSolution_success_spec _ draws p h

theorem setPair_sym_D (D : ℕ → ℕ → Option ℚ) (u v : ℕ) (w : ℚ)
    (h : DSym D) : DSym (setD (setD D u v w) v u w) := by
  intro i j
  unfold setD
  split_ifs <;> first | rfl | exact h i j | tauto

theorem setPair_sym_P (P : ℕ → ℕ → ℚ) (u v : ℕ) (w : ℚ)
    (h : PSym P) : PSym (setP (setP P u v w) v u w) := by
  intro i j
  unfold setP
  split_ifs <;> first | rfl | exact h i j | tauto

theorem addEdge_sym (coords : ℕ → ℚ × ℚ) (hypot : ℚ → ℚ → ℚ)
    (s : MatState) (u v : ℕ) (hD : DSym s.Distances)
    (hP : PSym s.Pheromones) :
    DSym (addEdge coords hypot s u v).Distances ∧
      PSym (addEdge coords hypot s u v).Pheromones := by
  unfold addEdge
  by_cases hg : (s.Distances u v).isSome = true
  · rw [if_pos hg]
    exact ⟨hD, hP⟩
  · rw [if_neg hg]
    exact ⟨setPair_sym_D _ _ _ _ hD, setPair_sym_P _ _ _ _ hP⟩

theorem foldl_addEdge_sym (coords : ℕ → ℚ × ℚ) (hypot : ℚ → ℚ → ℚ)
    (l : List (ℕ × ℕ)) :
    ∀ s : MatState, DSym s.Distances → PSym s.Pheromones →
      DSym ((l.foldl (fun s p => addEdge coords hypot s p.1 p.2) s).Distances) ∧
      PSym ((l.foldl (fun s p => addEdge coords hypot s p.1 p.2) s).Pheromones) := by
  induction l with
  | nil => intro s hD hP; exact ⟨hD, hP⟩
  | cons p rest ih =>
    intro s hD hP
    rw [List.foldl_cons]
    obtain ⟨hD', hP'⟩ := addEdge_sym coords hypot s p.1 p.2 hD hP
    exact ih _ hD' hP'

theorem foldl_shortcut_sym (coords : ℕ → ℚ × ℚ) (hypot : ℚ → ℚ → ℚ)
    (l : List (ℕ × ℕ)) :
    ∀ s : MatState, DSym s.Distances → PSym s.Pheromones →
      DSym ((l.foldl
        (fun s p => if p.1 ≠ p.2 then addEdge coords hypot s p.1 p.2 else s)
        s).Distances) ∧
      PSym ((l.foldl
        (fun s p => if p.1 ≠ p.2 then addEdge coords hypot s p.1 p.2 else s)
        s).Pheromones) := by
  induction l with
  | nil => intro s hD hP; exact ⟨hD, hP⟩
  | cons p rest ih =>
    intro s hD hP
    rw [List.foldl_cons]
    by_cases hp : p.1 ≠ p.2
    · rw [if_pos hp]
      obtain ⟨hD', hP'⟩ := addEdge_sym coords hypot s p.1 p.2 hD hP
      exact ih _ hD' hP'
    · rw [if_neg hp]
      exact ih s hD hP

theorem NewACO_sym (nodeCount : ℕ) (coords : ℕ → ℚ × ℚ)
    (hypot : ℚ → ℚ → ℚ) (shortcuts : List (ℕ × ℕ)) :
    DSym (NewACO nodeCount coords hypot shortcuts).Distances ∧
      PSym (NewACO nodeCount coords hypot shortcuts).Pheromones := by
  have base := foldl_shortcut_sym coords hypot shortcuts
    ((ringEdges nodeCount).foldl (fun s p => addEdge coords hypot s p.1 p.2)
      { Distances := fun _ _ => none, Pheromones := fun _ _ => 0, edges := [] })
  obtain ⟨hD, hP⟩ := foldl_addEdge_sym coords hypot (ringEdges nodeCount)
    { Distances := fun _ _ => none, Pheromones := fun _ _ => 0, edges := [] }
    (fun _ _ => rfl) (fun _ _ => rfl)
  exact base hD hP

theorem evaporate_sym (aco : ACO) (hD : DSym aco.Distances)
    (hP : PSym aco.Pheromones) : PSym (evaporate aco) := by
  intro i j
  unfold evaporate
  have hiff : (i < aco.n ∧ j < aco.n ∧ (aco.Distances i j).isSome = true) ↔
      (j < aco.n ∧ i < aco.n ∧ (aco.Distances j i).isSome = true) := by
    rw [hD i j]
    tauto
  by_cases h1 : i < aco.n ∧ j < aco.n ∧ (aco.Distances i j).isSome = true
  · rw [if_pos h1, if_pos (hiff.mp h1), hP i j]
  · rw [if_neg h1, if_neg (fun hc => h1 (hiff.mpr hc)), hP i j]

theorem bump_bump_sym (ph : ℕ → ℕ → ℚ) (u v : ℕ) (d : ℚ)
    (h : PSym ph) : PSym (bump (bump ph u v d) v u d) := by
  intro i j
  rw [bump_bump_apply, bump_bump_apply, h i j]
  have e1 : (i = u ∧ j = v) ↔ (j = v ∧ i = u) := and_comm
  have e2 : (i = v ∧ j = u) ↔ (j = u ∧ i = v) := and_comm
  rw [if_congr e1 rfl rfl, if_congr e2 rfl rfl]
  ring

theorem depositPath_sym (d : ℚ) :
    ∀ (path : List ℕ) (ph : ℕ → ℕ → ℚ), PSym ph →
      PSym (depositPath d ph path) := by
  intro path
  induction path with
  | nil => intro ph h; unfold depositPath; exact h
  | cons u tail ih =>
    intro ph h
    cases tail with
    | nil => unfold depositPath; exact h
    | cons v rest =>
      unfold depositPath
      exact ih (bump (bump ph u v d) v u d) (bump_bump_sym ph u v d h)

theorem depositAll_sym :
    ∀ (results : List (Option (List ℕ × Option ℚ))) (ph : ℕ → ℕ → ℚ),
      PSym ph → PSym (depositAll ph results) := by
  intro results
  induction results with
  | nil => intro ph h; unfold depositAll; exact h
  | cons r rest ih =>
    intro ph h
    cases r with
    | none => unfold depositAll; exact ih ph h
    | some pr =>
      cases pr with
      | mk path dist =>
        unfold depositAll
        exact ih _ (depositPath_sym (divD Q dist) path ph h)

theorem Step_fst_Distances (aco : ACO) (draws : ℕ → ℚ) :
    (Step aco draws).1.Distances = aco.Distances := by
  have h : (Step aco draws).1.Distances =
      (antsLoop aco draws AntCount).2.1.Distances := by
    unfold Step
    dsimp only
  rw [h]
  exact (antsLoop_preserves AntCount aco draws).2.1

theorem Step_fst_Pheromones (aco : ACO) (draws : ℕ → ℚ) :
    (Step aco draws).1.Pheromones =
      depositAll (evaporate (antsLoop aco draws AntCount).2.1)
        (antsLoop aco draws AntCount).1 := by
  unfold Step
  dsimp only

theorem Step_sym (aco : ACO) (draws : ℕ → ℚ) (hD : DSym aco.Distances)
    (hP : PSym aco.Pheromones) :
    DSym (Step aco draws).1.Distances ∧ PSym (Step aco draws).1.Pheromones := by
  constructor
  · rw [Step_fst_Distances]
    exact hD
  · rw [Step_fst_Pheromones]
    refine depositAll_sym _ _ (evaporate_sym _ ?_ ?_)
    · rw [(antsLoop_preserves AntCount aco draws).2.1]
      exact hD
    · rw [(antsLoop_preserves AntCount aco draws).2.2.1]
      exact hP

theorem stepsN_sym : ∀ (k : ℕ) (aco : ACO) (draws : ℕ → ℚ),
    DSym aco.Distances → PSym aco.Pheromones →
    DSym (stepsN k aco draws).1.Distances ∧
      PSym (stepsN k aco draws).1.Pheromones
  | 0, _, _, hD, hP => ⟨hD, hP⟩
  | k + 1, aco, draws, hD, hP =>
    stepsN_sym k (Step aco draws).1 (Step aco draws).2
      (Step_sym aco draws hD hP).1 (Step_sym aco draws hD hP).2

/-- C3: both matrices are symmetric right after initialization and stay
symmetric after every further step. -/
theorem C3_symmetry (nodeCount : ℕ) (coords : ℕ → ℚ × ℚ)
    (hypot : ℚ → ℚ → ℚ) (shortcuts : List (ℕ × ℕ)) (draws : ℕ → ℚ)
    (k : ℕ) :
    (∀ i j,
      (stepsN k (NewACO nodeCount coords hypot shortcuts) draws).1.Distances
          i j =
        (stepsN k (NewACO nodeCount coords hypot shortcuts) draws).1.Distances
          j i) ∧
    (∀ i j,
      (stepsN k (NewACO nodeCount coords hypot shortcuts) draws).1.Pheromones
          i j =
        (stepsN k (NewACO nodeCount coords hypot shortcuts) draws).1.Pheromones
          j i) :=
  stepsN_sym k (NewACO nodeCount coords hypot shortcuts) draws
    (NewACO_sym nodeCount coords hypot shortcuts).1
    (NewACO_sym nodeCount coords hypot shortcuts).2

theorem pairSum_cons (w : ℕ → ℕ → ℚ) (u v : ℕ) (rest : List ℕ) :
    pairSum w (u :: v :: rest) = w u v + pairSum w (v :: rest) := by
  unfold pairSum
  rw [List.tail_cons, List.tail_cons, List.zip_cons_cons, List.map_cons,
    List.sum_cons]

theorem distFold_acc (aco : ACO) (w : ℕ → ℕ → ℚ) :
    ∀ (path : List ℕ) (acc : ℚ),
      List.Chain' (fun u v => aco.Distances u v = some (w u v)) path →
      distFold aco (some acc) path = some (acc + pairSum w path) := by
  intro path
  induction path with
  | nil =>
    intro acc h
    unfold distFold pairSum
    simp
  | cons u tail ih =>
    intro acc h
    cases tail with
    | nil =>
      unfold distFold pairSum
      simp
    | cons v rest =>
      rw [List.chain'_cons] at h
      unfold distFold
      rw [h.1]
      have ha : addD (some acc) (some (w u v)) = some (acc + w u v) := rfl
      rw [ha, ih (acc + w u v) h.2, pairSum_cons, add_assoc]

theorem tourFold_acc (D : ℕ → ℕ → ℚ) :
    ∀ (path : List ℕ) (acc : ℚ),
      Tsp.tourFold D acc path = acc + pairSum D path := by
  intro path
  induction path with
  | nil =>
    intro acc
    unfold Tsp.tourFold pairSum
    simp
  | cons u tail ih =>
    intro acc
    cases tail with
    | nil =>
      unfold Tsp.tourFold pairSum
      simp
    | cons v rest =>
      unfold Tsp.tourFold
      rw [ih (acc + D u v), pairSum_cons, add_assoc]

/-- C7: the open-mode evaluator computes exactly the consecutive-pair
weight sum, and the closed-tour evaluator that sum plus the return edge
from the last node to the first. -/
theorem C7_path_evaluator :
    (∀ (aco : ACO) (w : ℕ → ℕ → ℚ) (path : List ℕ),
      List.Chain' (fun u v => aco.Distances u v = some (w u v)) path →
      calculatePathDistance aco path = some (pairSum w path)) ∧
    (∀ (D : ℕ → ℕ → ℚ) (path : List ℕ) (h : path ≠ []),
      Tsp.calculatePathDistance D path =
        pairSum D path + D (path.getLast h) (path.head h)) := by
  constructor
  · intro aco w path hch
    unfold calculatePathDistance
    rw [distFold_acc aco w path 0 hch, zero_add]
  · intro D path h
    cases path with
    | nil => exact absurd rfl h
    | cons p rest =>
      unfold Tsp.calculatePathDistance
      dsimp only
      rw [tourFold_acc D (p :: rest) 0, zero_add, List.head_cons]

theorem list_map_sum_single (f : ℕ → ℚ) (i : ℕ)
    (h0 : ∀ j, j ≠ i → f j = 0) :
    ∀ l : List ℕ, l.Nodup → i ∈ l → (l.map f).sum = f i := by
  intro l
  induction l with
  | nil => intro _ hi; simp at hi
  | cons a rest ih =>
    intro hnd hi
    rw [List.map_cons, List.sum_cons]
    by_cases ha : a = i
    · subst ha
      have hrest : (rest.map f).sum = 0 := by
        refine List.sum_eq_zero ?_
        intro x hx
        obtain ⟨j, hj, rfl⟩ := List.mem_map.mp hx
        refine h0 j ?_
        intro hji
        subst hji
        exact (List.nodup_cons.mp hnd).1 hj
      rw [hrest, add_zero]
    · rw [h0 a ha, zero_add]
      refine ih (List.nodup_cons.mp hnd).2 ?_
      rcases List.mem_cons.mp hi with hia | hir
      · exact absurd hia.symm ha
      · exact hir

theorem scanLoop_unique (aco : ACO) (visited : ℕ → Bool) (current : ℕ)
    (r : ℚ) (i : ℕ)
    (hel : eligible aco visited current i = true)
    (hother : ∀ j, j ≠ i → eligible aco visited current j = false)
    (hr : r ≤ probOf aco visited current i) :
    ∀ l : List ℕ, i ∈ l →
      scanLoop aco visited current r l 0 = some i := by
  intro l
  induction l with
  | nil => intro hi; simp at hi
  | cons a rest ih =>
    intro hi
    by_cases ha : a = i
    · subst ha
      unfold scanLoop
      rw [if_pos hel, if_pos (by rw [zero_add]; exact hr)]
    · unfold scanLoop
      rw [if_neg (by rw [hother a ha]; exact Bool.false_ne_true)]
      refine ih ?_
      rcases List.mem_cons.mp hi with hia | hir
      · exact absurd hia.symm ha
      · exact hir

theorem selectNextCity_unique (aco : ACO) (current : ℕ)
    (visited : ℕ → Bool) (draws : ℕ → ℚ) (i : ℕ) (hn : i < aco.n)
    (hel : eligible aco visited current i = true)
    (hpos : 0 < probOf aco visited current i)
    (hother : ∀ j, j ≠ i → eligible aco visited current j = false)
    (hd1 : draws 0 < 1) :
    selectNextCity aco current visited draws =
      (some i, fun k => draws (k + 1)) := by
  have hsum : sumProbs aco visited current = probOf aco visited current i := by
    unfold sumProbs
    exact list_map_sum_single (probOf aco visited current) i
      (fun j hj => probOf_of_not_eligible aco visited current j (hother j hj))
      (List.range aco.n) (List.nodup_range aco.n) (List.mem_range.mpr hn)
  have hr : draws 0 * sumProbs aco visited current ≤
      probOf aco visited current i := by
    rw [hsum]
    calc draws 0 * probOf aco visited current i
        ≤ 1 * probOf aco visited current i :=
          mul_le_mul_of_nonneg_right (le_of_lt hd1) (le_of_lt hpos)
      _ = probOf aco visited current i := one_mul _
  unfold selectNextCity
  rw [if_neg (by rw [hsum]; exact ne_of_gt hpos)]
  rw [scanLoop_unique aco visited current
    (draws 0 * sumProbs aco visited current) i hel hother hr
    (List.range aco.n) (List.mem_range.mpr hn)]

theorem aco4_stage1 (w01 w12 w23 : ℚ) (h01 : 0 < w01) (draws : ℕ → ℚ)
    (hd1 : draws 0 < 1) :
    selectNextCity (aco4 w01 w12 w23) 0 (markVisited (fun _ => false) 0)
        draws = (some 1, fun k => draws (k + 1)) := by
  refine selectNextCity_unique _ _ _ _ 1 (by norm_num [aco4]) ?_ ?_ ?_ hd1
  · simp [eligible, aco4, markVisited]
  · have he : probOf (aco4 w01 w12 w23) (markVisited (fun _ => false) 0) 0 1 =
        (1 / w01) ^ 5 := by
      simp [probOf, aco4, markVisited, Alpha, Beta]
    rw [he]
    exact pow_pos (by positivity) 5
  · intro j hj
    by_cases hj0 : j = 0
    · subst hj0
      simp [eligible, markVisited]
    · simp [eligible, aco4, markVisited, hj, hj0]

theorem aco4_stage2 (w01 w12 w23 : ℚ) (h12 : 0 < w12) (draws : ℕ → ℚ)
    (hd1 : draws 0 < 1) :
    selectNextCity (aco4 w01 w12 w23) 1
        (markVisited (markVisited (fun _ => false) 0) 1) draws =
      (some 2, fun k => draws (k + 1)) := by
  refine selectNextCity_unique _ _ _ _ 2 (by norm_num [aco4]) ?_ ?_ ?_ hd1
  · simp [eligible, aco4, markVisited]
  · have he : probOf (aco4 w01 w12 w23)
        (markVisited (markVisited (fun _ => false) 0) 1) 1 2 =
        (1 / w12) ^ 5 := by
      simp [probOf, aco4, markVisited, Alpha, Beta]
    rw [he]
    exact pow_pos (by positivity) 5
  · intro j hj
    by_cases hj0 : j = 0
    · subst hj0
      simp [eligible, markVisited]
    · by_cases hj1 : j = 1
      · subst hj1
        simp [eligible, markVisited]
      · simp [eligible, aco4, markVisited, hj, hj0, hj1]

theorem aco4_stage3 (w01 w12 w23 : ℚ) (h23 : 0 < w23) (draws : ℕ → ℚ)
    (hd1 : draws 0 < 1) :
    selectNextCity (aco4 w01 w12 w23) 2
        (markVisited (markVisited (markVisited (fun _ => false) 0) 1) 2)
        draws =
      (some 3, fun k => draws (k + 1)) := by
  refine selectNextCity_unique _ _ _ _ 3 (by norm_num [aco4]) ?_ ?_ ?_ hd1
  · simp [eligible, aco4, markVisited]
  · have he : probOf (aco4 w01 w12 w23)
        (markVisited (markVisited (markVisited (fun _ => false) 0) 1) 2) 2 3 =
        (1 / w23) ^ 5 := by
      simp [probOf, aco4, markVisited, Alpha, Beta]
    rw [he]
    exact pow_pos (by positivity) 5
  · intro j hj
    by_cases hj0 : j = 0
    · subst hj0
      simp [eligible, aco4, markVisited]
    · by_cases hj1 : j = 1
      · subst hj1
        simp [eligible, markVisited]
      · by_cases hj2 : j = 2
        · subst hj2
          simp [eligible, markVisited]
        · simp [eligible, aco4, markVisited, hj, hj0, hj1, hj2]

theorem constructLoop_succ_goal (aco : ACO) (fuel current : ℕ)
    (visited : ℕ → Bool) (path : List ℕ) (draws : ℕ → ℚ)
    (hg : current = aco.GoalNode) :
    constructLoop aco (fuel + 1) current visited path draws =
      (.success path, draws) := by
  conv_lhs => rw [constructLoop]
  rw [if_pos hg]

theorem constructLoop_succ_move (aco : ACO) (fuel current : ℕ)
    (visited : ℕ → Bool) (path : List ℕ) (draws : ℕ → ℚ) (next : ℕ)
    (draws' : ℕ → ℚ) (hg : ¬(current = aco.GoalNode))
    (hsel : selectNextCity aco current visited draws = (some next, draws')) :
    constructLoop aco (fuel + 1) current visited path draws =
      constructLoop aco fuel next (markVisited visited next)
        (path ++ [next]) draws' := by
  conv_lhs => rw [constructLoop]
  rw [if_neg hg, hsel]

/-- C8: on the 4-node path graph the single ant always builds
`[0, 1, 2, 3]` and its cost is the sum of the three edge weights. -/
theorem C8_path_graph_scenario (w01 w12 w23 : ℚ) (draws : ℕ → ℚ)
    (h01 : 0 < w01) (h12 : 0 < w12) (h23 : 0 < w23)
    (hd : ∀ k, 0 ≤ draws k ∧ draws k < 1) :
    (constructSolution (aco4 w01 w12 w23) draws).1 =
      .success [0, 1, 2, 3] ∧
    calculatePathDistance (aco4 w01 w12 w23) [0, 1, 2, 3] =
      some (w01 + w12 + w23) := by
  constructor
  · show (constructLoop (aco4 w01 w12 w23) 8 0
      (markVisited (fun _ => false) 0) [0] draws).1 = .success [0, 1, 2, 3]
    rw [constructLoop_succ_move (aco4 w01 w12 w23) 7 0 _ _ draws 1 _
        (by norm_num [aco4]) (aco4_stage1 w01 w12 w23 h01 draws (hd 0).2),
      constructLoop_succ_move (aco4 w01 w12 w23) 6 1 _ _ _ 2 _
        (by norm_num [aco4]) (aco4_stage2 w01 w12 w23 h12 _ (hd 1).2),
      constructLoop_succ_move (aco4 w01 w12 w23) 5 2 _ _ _ 3 _
        (by norm_num [aco4]) (aco4_stage3 w01 w12 w23 h23 _ (hd 2).2),
      constructLoop_succ_goal (aco4 w01 w12 w23) 4 3 _ _ _ (by norm_num [aco4])]
    rfl
  · have d01 : (aco4 w01 w12 w23).Distances 0 1 = some w01 := by
      norm_num [aco4]
    have d12 : (aco4 w01 w12 w23).Distances 1 2 = some w12 := by
      norm_num [aco4]
    have d23 : (aco4 w01 w12 w23).Distances 2 3 = some w23 := by
      norm_num [aco4]
    have hfold : calculatePathDistance (aco4 w01 w12 w23) [0, 1, 2, 3] =
        addD (addD (addD (some 0) (some w01)) (some w12)) (some w23) := by
      unfold calculatePathDistance
      simp only [distFold, d01, d12, d23]
    rw [hfold]
    show some (0 + w01 + w12 + w23) = some (w01 + w12 + w23)
    norm_num

theorem C1_witness :
    countEdgeTraversals 0 1 (antsLoop acoW wdraws AntCount).1 = 1 ∧
    (Step acoW wdraws).1.Pheromones 0 1 =
      acoW.Pheromones 0 1 * (1 - Evaporation) + Q / 2 :=
  ⟨by decide, C1_evaporation_before_deposit acoW wdraws 0 1 2 (by decide)
    (by decide) (by decide) (by decide) (by decide) (by decide)⟩

theorem C2_witness :
    (aco4 1 1 1).StartNode < (aco4 1 1 1).n ∧
    (constructSolution (aco4 1 1 1) halfDraws).1 ≠ .stepOver :=
  ⟨by decide, (C2_open_mode_outcomes (aco4 1 1 1) halfDraws (by decide)).2⟩

theorem C4_witness :
    ((stepsN 2 acoDead halfDraws).1).BestDist ≤ acoDead.BestDist :=
  (C4_monotonic_best acoDead halfDraws).1 2

theorem C5_witness :
    (selectNextCity acoDead 0 (markVisited (fun _ => false) 0)
      halfDraws).1 = some 1 ∧
    ((markVisited (fun _ => false) 0) 1 = false ∧
      (acoDead.Distances 0 1).isSome = true) :=
  ⟨by decide, (C5_selection_guard acoDead 0 (markVisited (fun _ => false) 0)
    halfDraws).2 1 (by decide)⟩

theorem C6_witness :
    (0 : ℕ) ≠ 1 ∧
    (Step acoDead halfDraws).1.Pheromones 0 1 =
      evaporate acoDead 0 1 +
        successDeposit 0 1 (antsLoop acoDead halfDraws AntCount).1 :=
  ⟨by decide, C6_no_reward_without_success acoDead halfDraws 0 1 (by decide)⟩

theorem C7_witness :
    calculatePathDistance (aco4 1 1 1) [0, 1, 2, 3] =
      some (pairSum (fun _ _ => 1) [0, 1, 2, 3]) ∧
    Tsp.calculatePathDistance (fun _ _ => (1 : ℚ)) [0, 1] =
      pairSum (fun _ _ => (1 : ℚ)) [0, 1] + 1 :=
  ⟨C7_path_evaluator.1 (aco4 1 1 1) (fun _ _ => 1) [0, 1, 2, 3]
    (by norm_num [List.chain'_cons, aco4]),
   C7_path_evaluator.2 (fun _ _ => (1 : ℚ)) [0, 1] (by decide)⟩

theorem C8_witness :
    (constructSolution (aco4 1 1 1) halfDraws).1 = .success [0, 1, 2, 3] ∧
    calculatePathDistance (aco4 1 1 1) [0, 1, 2, 3] = some (1 + 1 + 1) :=
  C8_path_graph_scenario 1 1 1 halfDraws (by decide) (by decide) (by decide)
    (fun _ => ⟨by norm_num [halfDraws], by norm_num [halfDraws]⟩)

/-- C9, as stated, fails on the code: after a step of a fresh engine in
which no candidate ever succeeded, the host receives the numeric
sentinel `MaxFloat64` as the best cost, not an absent "none" signal
(only the path is a `nil`/null value). -/
theorem C9_counterexample :
    (stepWrapper acoDead halfDraws).1.bestDist = MaxFloat64 ∧
    (stepWrapper acoDead halfDraws).1.bestPath = none ∧
    (antsLoop acoDead halfDraws AntCount).1 = List.replicate AntCount none := by
  exact ⟨by decide, by decide, by decide⟩

theorem C9_witness :
    (antsLoop acoDead halfDraws AntCount).1 = List.replicate AntCount none ∧
    ((stepWrapper acoDead halfDraws).1.bestDist = acoDead.BestDist ∧
      (stepWrapper acoDead halfDraws).1.bestPath = acoDead.BestPath) :=
  ⟨by decide, C9_no_success_snapshot acoDead halfDraws (by decide)⟩

theorem C10_witness :
    (constructSolution (NewACO 2 (fun _ => (0, 0)) (fun _ _ => 0) [])
      (fun _ => 1/2)).1 = .success [0, 1] ∧
    ([0, 1].head? = some 0 ∧ [0, 1].getLast? = some (2 - 1) ∧
      ([0, 1] : List ℕ).Nodup ∧
      List.Chain' (adj (NewACO 2 (fun _ => (0, 0)) (fun _ _ => 0) [])) [0, 1]) :=
  ⟨by decide, C10_success_path_invariants 2 (fun _ => (0, 0)) (fun _ _ => 0) []
    (fun _ => 1/2) [0, 1] (by decide)⟩

end WasmACO
